import Mathlib

/-!
Verification of the whispercreep Video Frame Snatcher core
(src/video_frame_snatcher.pyw) against its specification.

Two components are embedded:
* `ReviewDialog` — the paginated navigation engine (PageNavigator in the
  spec): an ordered list of image file paths plus an integer cursor
  `current_index`, with the six navigation operations of the Python class.
  The cursor is modelled as `Int` because Python integers are unbounded and
  `jump_forward` can drive the index negative when the collection is
  shorter than the page size (Python then indexes from the end of the list
  rather than raising).
* `FrameExtractor` — the frame-sampling engine (FrameSampler in the spec):
  interval computation from actual vs target frame rate (rationals stand in
  for Python floats for the externally reported rates), the decode loop
  with 1-based reported positions, the snapshot file naming, progress
  emission and source release.

The two progress/percentage expressions `int(current_frame / total_frames
* 100)` and `int((self.current_index / max(1, len(self.image_files))) *
100)` are evaluated by Python in IEEE 754 binary64 arithmetic, and their
values occasionally differ from the exact integer `floor`: these two
expressions are therefore embedded through `fl64`, an exact model of
binary64 rounding (round to nearest, ties to even) on rationals.
-/

namespace Snatcher

/-- Truncation toward zero on rationals — Python `int()` applied to a
finite float value. -/
def floatTrunc (q : ℚ) : ℤ :=
  if 0 ≤ q then ⌊q⌋ else -⌊-q⌋

/-- Round a rational to the nearest integer with ties to even, the IEEE 754
default rounding applied to a scaled significand. -/
def roundHalfEven (m : ℚ) : ℤ :=
  if m - ⌊m⌋ < 1 / 2 then ⌊m⌋
  else if 1 / 2 < m - ⌊m⌋ then ⌊m⌋ + 1
  else if 2 ∣ ⌊m⌋ then ⌊m⌋ else ⌊m⌋ + 1

/-- Exact model of IEEE 754 binary64 rounding (round to nearest, ties to
even) of a rational: the significand `q * 2 ^ (52 - log2 q)` lies in
`[2^52, 2^53)` and is rounded to an integer with ties to even.  CPython
computes `int / int` true division and float multiplication as the
correctly rounded binary64 value of the exact rational result, which is
`fl64` of that rational.  The model keeps an unbounded exponent, so it
agrees with binary64 on the whole normal range `2^-1022 ≤ |q| < 2^1024`
and deviates only where a double would go subnormal or overflow — which
for the progress and percentage ratios modelled here would require frame
counts or collection lengths beyond `2^1022`. -/
def fl64 (q : ℚ) : ℚ :=
  if q = 0 then 0
  else if 0 < q then
    (roundHalfEven (q * 2 ^ (52 - Int.log 2 q)) : ℚ) * 2 ^ (Int.log 2 q - 52)
  else
    -((roundHalfEven (-q * 2 ^ (52 - Int.log 2 (-q))) : ℚ) * 2 ^ (Int.log 2 (-q) - 52))

/-- State of the review dialog: the ordered image collection fixed at
construction and the page cursor.  Mirrors `ReviewDialog.__init__`, which
stores `image_files` and sets `current_index = 0`. -/
structure ReviewDialog where
  image_files : List String
  current_index : Int
  deriving Repr, DecidableEq

/-- Construction: `self.image_files = image_files; self.current_index = 0`. -/
def ReviewDialog.init (files : List String) : ReviewDialog :=
  { image_files := files, current_index := 0 }

/-- Length of the collection as an integer, `len(self.image_files)`. -/
def ReviewDialog.len (d : ReviewDialog) : Int :=
  (d.image_files.length : Int)

/-- `show_next`: `if self.current_index + 10 < len(self.image_files):
self.current_index += 10` — otherwise no change. -/
def show_next (d : ReviewDialog) : ReviewDialog :=
  if d.current_index + 10 < d.len then
    { d with current_index := d.current_index + 10 }
  else d

/-- `show_previous`: `if self.current_index - 10 >= 0:
self.current_index -= 10` — otherwise no change. -/
def show_previous (d : ReviewDialog) : ReviewDialog :=
  if 0 ≤ d.current_index - 10 then
    { d with current_index := d.current_index - 10 }
  else d

/-- `jump_amount = max(1, int(len(self.image_files) * 0.05))`.  For every
list length `n < 2 ^ 52` the float expression `int(n * 0.05)` equals the
integer floor division `n / 20` (the double nearest to 0.05 lies just above
1/20 and the product rounding never crosses an integer boundary), so the
embedding uses the exact `n / 20`. -/
def jump_amount (d : ReviewDialog) : Int :=
  max 1 ((d.image_files.length / 20 : ℕ) : Int)

/-- `jump_forward`: `self.current_index = min(self.current_index +
jump_amount, len(self.image_files) - 10)`.  Note the source has no lower
clamp: for collections shorter than 10 the new index is negative. -/
def jump_forward (d : ReviewDialog) : ReviewDialog :=
  { d with current_index := min (d.current_index + jump_amount d) (d.len - 10) }

/-- `jump_back`: `self.current_index = max(self.current_index - jump_amount, 0)`. -/
def jump_back (d : ReviewDialog) : ReviewDialog :=
  { d with current_index := max (d.current_index - jump_amount d) 0 }

/-- `jump_to_start`: `self.current_index = 0`. -/
def jump_to_start (d : ReviewDialog) : ReviewDialog :=
  { d with current_index := 0 }

/-- `jump_to_end`: `self.current_index = max(0, len(self.image_files) - 10)`. -/
def jump_to_end (d : ReviewDialog) : ReviewDialog :=
  { d with current_index := max 0 (d.len - 10) }

/-- The six navigation operations of the dialog. -/
inductive NavOp where
  | next
  | previous
  | jumpForward
  | jumpBackward
  | jumpToStart
  | jumpToEnd
  deriving Repr, DecidableEq

/-- Dispatch one navigation operation to the corresponding method. -/
def applyOp : NavOp → ReviewDialog → ReviewDialog
  | NavOp.next, d => show_next d
  | NavOp.previous, d => show_previous d
  | NavOp.jumpForward, d => jump_forward d
  | NavOp.jumpBackward, d => jump_back d
  | NavOp.jumpToStart, d => jump_to_start d
  | NavOp.jumpToEnd, d => jump_to_end d

/-- Apply a sequence of navigation operations in order. -/
def applyOps (ops : List NavOp) (d : ReviewDialog) : ReviewDialog :=
  ops.foldl (fun s op => applyOp op s) d

/-- Result of `update_position_info`: the displayed 1-based range
`start`-`stop` and the progress-bar percentage. -/
structure PositionInfo where
  start : Int
  stop : Int
  percent : Int
  deriving Repr, DecidableEq

/-- `update_position_info`: `start = self.current_index + 1`, `end =
min(self.current_index + 10, len(self.image_files))`, `progress =
int((self.current_index / max(1, len(self.image_files))) * 100)`.  The
progress expression is evaluated in binary64: the integer true division is
the correctly rounded double of the exact ratio, the multiplication by 100
rounds again, and `int()` truncates toward zero — hence the `fl64` model.
Its value can differ from the exact `floor`: at cursor 29 over 100 images
the double computation yields 28 where the exact floor is 29. -/
def update_position_info (d : ReviewDialog) : PositionInfo :=
  { start := d.current_index + 1
    stop := min (d.current_index + 10) d.len
    percent := floatTrunc (fl64 (fl64
      ((d.current_index : ℚ) / (((max 1 d.len : ℤ)) : ℚ)) * 100)) }

/-- One successful `video.read()` in the decode loop.  `ok` is a frame whose
write (if the frame is selected) succeeds; `writeRaises` is a frame whose
`cv2.imwrite` raises an exception if it is attempted. -/
inductive FrameEvent where
  | ok
  | writeRaises
  deriving Repr, DecidableEq

/-- How the stream of successful reads ends: `eof` is `ret == False`
(normal end of stream), `readRaises` is `video.read()` raising. -/
inductive EndEvent where
  | eof
  | readRaises
  deriving Repr, DecidableEq

/-- Observable outcome of `FrameExtractor.run`: the writes performed (file
sequence index and the reported frame position, in order), the emitted
progress values, whether `video.release()` was reached, and whether the
`finished` signal was emitted. -/
structure RunResult where
  writes : List (ℕ × ℕ)
  progress : List ℤ
  released : Bool
  finished : Bool
  deriving Repr, DecidableEq

/-- Interval computation of `FrameExtractor.run`:
`if actual_fps <= 0 or self.fps <= 0: interval = 1
else: interval = max(1, int(actual_fps / self.fps))`.
Rates are modelled as rationals; Python `int()` truncates toward zero,
which on the positive quotient of the else-branch is the floor. -/
def interval (actual_fps target_fps : ℚ) : ℕ :=
  if actual_fps ≤ 0 ∨ target_fps ≤ 0 then 1
  else max 1 (Rat.floor (actual_fps / target_fps)).toNat

/-- Progress emission after one decoded frame:
`if total_frames > 0: self.progress.emit(int(current_frame / total_frames * 100))`.
The emitted integer is computed in binary64 — correctly rounded true
division of the two ints, correctly rounded multiplication by 100, then
truncation — modelled exactly by `fl64`.  Its value can be one below the
exact floor: with 100 total frames, frame 29 emits 28, not 29. -/
def progCons (total : Int) (current : ℕ) (ps : List ℤ) : List ℤ :=
  if 0 < total then
    floatTrunc (fl64 (fl64 ((current : ℚ) / (total : ℚ)) * 100)) :: ps
  else ps

/-- Zero padding of the Python format `f-string` width specifier `04`:
pad the decimal representation with leading zeros to at least 4 characters. -/
def pad4 (n : ℕ) : String :=
  String.mk (List.replicate (4 - (Nat.repr n).length) '0') ++ Nat.repr n

/-- Output file name `f'snapshot_{count:04}.jpg'` for sequence index `count`. -/
def snapshotName (count : ℕ) : String :=
  "snapshot_" ++ pad4 count ++ ".jpg"

/-- The `while True` decode loop of `FrameExtractor.run`, parametrised by
the computed interval and the reported total frame count.  `pos` frames
have been read so far, so the reported position of the next read
(`int(video.get(cv2.CAP_PROP_POS_FRAMES))` after `video.read()`) is
`pos + 1`; `count` is the next output sequence index.  A selected frame is
written before the progress emission, matching the statement order in the
source; an exception from a read or from a selected write propagates out
of the loop, skipping both `video.release()` and `self.finished.emit()`
because the source has no `try/finally`. -/
def runLoop (iv : ℕ) (total : Int) (stop : EndEvent) :
    List FrameEvent → ℕ → ℕ → RunResult
  | [], _, _ =>
    match stop with
    | EndEvent.eof => { writes := [], progress := [], released := true, finished := true }
    | EndEvent.readRaises => { writes := [], progress := [], released := false, finished := false }
  | e :: rest, pos, count =>
    if (pos + 1) % iv = 0 then
      match e with
      | FrameEvent.writeRaises =>
        { writes := [], progress := [], released := false, finished := false }
      | FrameEvent.ok =>
        let r := runLoop iv total stop rest (pos + 1) (count + 1)
        { r with
          writes := (count, pos + 1) :: r.writes
          progress := progCons total (pos + 1) r.progress }
    else
      let r := runLoop iv total stop rest (pos + 1) count
      { r with progress := progCons total (pos + 1) r.progress }

/-- `FrameExtractor.run` on a source that reports rate `actual_fps`, total
frame count `total`, and delivers `events` successful reads before the
stream ends with `stop`. -/
def run (actual_fps target_fps : ℚ) (total : Int)
    (events : List FrameEvent) (stop : EndEvent) : RunResult :=
  runLoop (interval actual_fps target_fps) total stop events 0 0

/-- Outcome of pressing Process, `VideoFrameSnatcher.process_video`:
either one of the two early-return warning paths, or the extractor is
started with the computed fps. -/
inductive ProcessOutcome where
  | rejectedMissingInfo
  | rejectedInvalidValue
  | started (fps : ℚ)
  deriving Repr, DecidableEq

/-- `VideoFrameSnatcher.process_video`.  `videoSelected`, `outputSelected`
and `textNonempty` model the truthiness of `self.video_path`,
`self.output_dir` and `self.fps_input.text()` in the `all([...])` guard;
`parsed` models `float(self.fps_input.text())` with `none` for the
`ValueError` path.  On success the extractor is started with
`fps = 1.0 / seconds_between_snapshots if seconds_between_snapshots > 0 else 0`. -/
def process_video (videoSelected outputSelected textNonempty : Bool)
    (parsed : Option ℚ) : ProcessOutcome :=
  if ¬(videoSelected ∧ outputSelected ∧ textNonempty) then
    ProcessOutcome.rejectedMissingInfo
  else
    match parsed with
    | none => ProcessOutcome.rejectedInvalidValue
    | some s => ProcessOutcome.started (if 0 < s then 1 / s else 0)

/-- Reported 1-based positions of `n` consecutive reads starting after
`pos` already-consumed frames. -/
def posList (pos n : ℕ) : List ℕ :=
  (List.range n).map (fun i => pos + 1 + i)

/-! ### Helper lemmas about the navigation operations -/

/-- Every navigation operation leaves the image collection untouched. -/
lemma applyOp_image_files (op : NavOp) (d : ReviewDialog) :
    (applyOp op d).image_files = d.image_files := by
  cases op <;>
    simp [applyOp, show_next, show_previous, jump_forward, jump_back,
      jump_to_start, jump_to_end] <;>
    split_ifs <;> rfl

/-- A sequence of navigation operations leaves the image collection untouched. -/
lemma applyOps_image_files (ops : List NavOp) (d : ReviewDialog) :
    (applyOps ops d).image_files = d.image_files := by
  induction ops generalizing d with
  | nil => rfl
  | cons op ops ih =>
    simp [applyOps] at ih ⊢
    rw [ih, applyOp_image_files]

/-- The cursor bound that the code actually maintains, stated for one step:
every operation keeps the cursor in `[min 0 (L - 10), max 0 (L - 1)]`. -/
lemma applyOp_cursor_bounds (op : NavOp) (d : ReviewDialog)
    (h1 : min 0 (d.len - 10) ≤ d.current_index)
    (h2 : d.current_index ≤ max 0 (d.len - 1)) :
    min 0 (d.len - 10) ≤ (applyOp op d).current_index ∧
      (applyOp op d).current_index ≤ max 0 (d.len - 1) := by
  have hd : (0 : Int) ≤ d.len := by
    simp [ReviewDialog.len]
  have hj : 1 ≤ jump_amount d := le_max_left _ _
  cases op <;>
    simp only [applyOp, show_next, show_previous, jump_forward, jump_back,
      jump_to_start, jump_to_end, ReviewDialog.len] at * <;>
    (try split_ifs) <;> (constructor <;> (try simp only [ReviewDialog.current_index]) <;> omega)

/-- The one-step bound propagated along any operation sequence. -/
lemma applyOps_cursor_bounds (ops : List NavOp) (d : ReviewDialog)
    (h1 : min 0 (d.len - 10) ≤ d.current_index)
    (h2 : d.current_index ≤ max 0 (d.len - 1)) :
    min 0 (d.len - 10) ≤ (applyOps ops d).current_index ∧
      (applyOps ops d).current_index ≤ max 0 (d.len - 1) := by
  induction ops generalizing d with
  | nil => exact ⟨h1, h2⟩
  | cons op ops ih =>
    have hstep := applyOp_cursor_bounds op d h1 h2
    have hlen : (applyOp op d).len = d.len := by
      simp [ReviewDialog.len, applyOp_image_files]
    have := ih (applyOp op d) (by rw [hlen]; exact hstep.1) (by rw [hlen]; exact hstep.2)
    rw [hlen] at this
    simpa [applyOps] using this

/-! ### Helper lemmas for the binary64 model -/

/-- The binade of a positive rational determines its base-2 integer
logarithm. -/
lemma log2_eq {q : ℚ} {e : ℤ} (hq : 0 < q) (h1 : (2 : ℚ) ^ e ≤ q)
    (h2 : q < (2 : ℚ) ^ (e + 1)) : Int.log 2 q = e := by
  have hb : 1 < 2 := one_lt_two
  have hle : e ≤ Int.log 2 q := (Int.zpow_le_iff_le_log hb hq).mp (by exact_mod_cast h1)
  have hlt : Int.log 2 q < e + 1 := (Int.lt_zpow_iff_log_lt hb hq).mp (by exact_mod_cast h2)
  omega

/-- Evaluation rule for rounding when the fractional part is below one
half. -/
lemma rhe_eq_of {m : ℚ} {f : ℤ} (hf : ⌊m⌋ = f) (hlt : m - f < 1 / 2) :
    roundHalfEven m = f := by
  rw [roundHalfEven, hf, if_pos hlt]

lemma rhe_ge_floor (m : ℚ) : ⌊m⌋ ≤ roundHalfEven m := by
  rw [roundHalfEven]
  split_ifs <;> omega

lemma rhe_le_floor_add_one (m : ℚ) : roundHalfEven m ≤ ⌊m⌋ + 1 := by
  rw [roundHalfEven]
  split_ifs <;> omega

/-- Rounding to nearest with ties to even is monotone. -/
lemma rhe_mono {m n : ℚ} (h : m ≤ n) : roundHalfEven m ≤ roundHalfEven n := by
  have hf : ⌊m⌋ ≤ ⌊n⌋ := Int.floor_le_floor h
  rcases lt_or_eq_of_le hf with hlt | heq
  · have h1 := rhe_le_floor_add_one m
    have h2 := rhe_ge_floor n
    omega
  · rw [roundHalfEven, roundHalfEven, ← heq]
    split_ifs <;>
      first
        | omega
        | (exfalso; push_neg at *; linarith)

lemma fl64_pos_eq {q : ℚ} (hq : 0 < q) :
    fl64 q = (roundHalfEven (q * 2 ^ (52 - Int.log 2 q)) : ℚ) * 2 ^ (Int.log 2 q - 52) := by
  rw [fl64, if_neg (ne_of_gt hq), if_pos hq]

lemma fl64_nonneg {q : ℚ} (hq : 0 ≤ q) : 0 ≤ fl64 q := by
  rcases eq_or_lt_of_le hq with h0 | hpos
  · rw [← h0]
    simp [fl64]
  · rw [fl64_pos_eq hpos]
    have hm : (0 : ℚ) ≤ q * 2 ^ (52 - Int.log 2 q) := by positivity
    have h1 : (0 : ℤ) ≤ ⌊q * 2 ^ (52 - Int.log 2 q)⌋ := Int.le_floor.mpr (by exact_mod_cast hm)
    have h2 := rhe_ge_floor (q * 2 ^ (52 - Int.log 2 q))
    have h3 : (0 : ℚ) ≤ (roundHalfEven (q * 2 ^ (52 - Int.log 2 q)) : ℚ) := by
      exact_mod_cast le_trans h1 h2
    positivity

/-- The rounded value stays below the top of the next binade. -/
lemma fl64_le_binade {q : ℚ} (hq : 0 < q) : fl64 q ≤ 2 ^ (Int.log 2 q + 1) := by
  rw [fl64_pos_eq hq]
  have hlt : q < (2 : ℚ) ^ (Int.log 2 q + 1) := Int.lt_zpow_succ_log_self one_lt_two q
  have hm : q * 2 ^ (52 - Int.log 2 q) < (2 : ℚ) ^ (53 : ℤ) := by
    calc q * 2 ^ (52 - Int.log 2 q)
        < (2 : ℚ) ^ (Int.log 2 q + 1) * 2 ^ (52 - Int.log 2 q) :=
          mul_lt_mul_of_pos_right hlt (by positivity)
      _ = (2 : ℚ) ^ (53 : ℤ) := by
          rw [← zpow_add₀ (two_ne_zero : (2 : ℚ) ≠ 0)]
          ring_nf
  have hfl : ⌊q * 2 ^ (52 - Int.log 2 q)⌋ < (2 : ℤ) ^ (53 : ℕ) := by
    apply Int.floor_lt.mpr
    calc q * 2 ^ (52 - Int.log 2 q) < (2 : ℚ) ^ (53 : ℤ) := hm
      _ = ((2 ^ (53 : ℕ) : ℤ) : ℚ) := by norm_num
  have hrhe : roundHalfEven (q * 2 ^ (52 - Int.log 2 q)) ≤ 2 ^ (53 : ℕ) := by
    have := rhe_le_floor_add_one (q * 2 ^ (52 - Int.log 2 q))
    omega
  calc (roundHalfEven (q * 2 ^ (52 - Int.log 2 q)) : ℚ) * 2 ^ (Int.log 2 q - 52)
      ≤ ((2 : ℚ) ^ (53 : ℤ)) * 2 ^ (Int.log 2 q - 52) := by
        apply mul_le_mul_of_nonneg_right _ (by positivity)
        exact_mod_cast hrhe
    _ = 2 ^ (Int.log 2 q + 1) := by
        rw [← zpow_add₀ (two_ne_zero : (2 : ℚ) ≠ 0)]
        ring_nf

/-- The rounded value stays at or above the bottom of its binade. -/
lemma binade_le_fl64 {q : ℚ} (hq : 0 < q) : (2 : ℚ) ^ (Int.log 2 q) ≤ fl64 q := by
  rw [fl64_pos_eq hq]
  have hge : (2 : ℚ) ^ (Int.log 2 q) ≤ q := Int.zpow_log_le_self one_lt_two hq
  have hm : (2 : ℚ) ^ (52 : ℤ) ≤ q * 2 ^ (52 - Int.log 2 q) := by
    calc (2 : ℚ) ^ (52 : ℤ)
        = (2 : ℚ) ^ (Int.log 2 q) * 2 ^ (52 - Int.log 2 q) := by
          rw [← zpow_add₀ (two_ne_zero : (2 : ℚ) ≠ 0)]
          ring_nf
      _ ≤ q * 2 ^ (52 - Int.log 2 q) :=
          mul_le_mul_of_nonneg_right hge (by positivity)
  have hfl : (2 : ℤ) ^ (52 : ℕ) ≤ ⌊q * 2 ^ (52 - Int.log 2 q)⌋ := by
    apply Int.le_floor.mpr
    calc ((2 ^ (52 : ℕ) : ℤ) : ℚ) = (2 : ℚ) ^ (52 : ℤ) := by norm_num
      _ ≤ q * 2 ^ (52 - Int.log 2 q) := hm
  have hrhe : (2 : ℤ) ^ (52 : ℕ) ≤ roundHalfEven (q * 2 ^ (52 - Int.log 2 q)) := by
    have := rhe_ge_floor (q * 2 ^ (52 - Int.log 2 q))
    omega
  calc (2 : ℚ) ^ (Int.log 2 q)
      = ((2 : ℚ) ^ (52 : ℤ)) * 2 ^ (Int.log 2 q - 52) := by
        rw [← zpow_add₀ (two_ne_zero : (2 : ℚ) ≠ 0)]
        ring_nf
    _ ≤ (roundHalfEven (q * 2 ^ (52 - Int.log 2 q)) : ℚ) * 2 ^ (Int.log 2 q - 52) := by
        apply mul_le_mul_of_nonneg_right _ (by positivity)
        calc ((2 : ℚ) ^ (52 : ℤ)) = ((2 ^ (52 : ℕ) : ℤ) : ℚ) := by norm_num
          _ ≤ _ := by exact_mod_cast hrhe

/-- Binary64 rounding is monotone on nonnegative inputs. -/
lemma fl64_mono {x y : ℚ} (hx : 0 ≤ x) (h : x ≤ y) : fl64 x ≤ fl64 y := by
  rcases eq_or_lt_of_le hx with h0 | hxpos
  · rw [← h0]
    simpa [fl64] using fl64_nonneg (le_trans hx h)
  · have hypos : 0 < y := lt_of_lt_of_le hxpos h
    have hlog : Int.log 2 x ≤ Int.log 2 y := Int.log_mono_right hxpos h
    rcases lt_or_eq_of_le hlog with hlt | heq
    · calc fl64 x ≤ 2 ^ (Int.log 2 x + 1) := fl64_le_binade hxpos
        _ ≤ (2 : ℚ) ^ (Int.log 2 y) := zpow_le_zpow_right₀ one_le_two (by omega)
        _ ≤ fl64 y := binade_le_fl64 hypos
    · rw [fl64_pos_eq hxpos, fl64_pos_eq hypos, ← heq]
      apply mul_le_mul_of_nonneg_right _ (by positivity)
      have hmm : x * 2 ^ (52 - Int.log 2 x) ≤ y * 2 ^ (52 - Int.log 2 x) :=
        mul_le_mul_of_nonneg_right h (by positivity)
      exact_mod_cast rhe_mono hmm

/-- Truncation toward zero is monotone. -/
lemma floatTrunc_mono {a b : ℚ} (h : a ≤ b) : floatTrunc a ≤ floatTrunc b := by
  rw [floatTrunc, floatTrunc]
  split_ifs with h1 h2 h2
  · exact Int.floor_le_floor h
  · linarith
  · have ha : (0 : ℚ) < -a := by linarith
    have hb : (0 : ℤ) ≤ ⌊b⌋ := Int.le_floor.mpr (by exact_mod_cast h2)
    have ha' : (0 : ℤ) ≤ ⌊-a⌋ := Int.le_floor.mpr (by exact_mod_cast le_of_lt ha)
    omega
  · have hba : ⌊-b⌋ ≤ ⌊-a⌋ := Int.floor_le_floor (by linarith)
    omega

/-- The full binary64 evaluation of `int(29 / 100 * 100)`: dividing the
integers 29 and 100 gives the double `5224175567749775 * 2^-54` (just
below `0.29`), multiplying by 100 gives `8162774324609023 * 2^-48` (just
below 29), and truncation yields 28 — not the exact floor 29. -/
lemma float_eval_29_100 : floatTrunc (fl64 (fl64 ((29 : ℚ) / 100) * 100)) = 28 := by
  rw [show fl64 ((29 : ℚ) / 100) = 5224175567749775 / 18014398509481984 by
    rw [fl64, if_neg (by norm_num), if_pos (by norm_num),
      log2_eq (q := (29 : ℚ) / 100) (e := -2) (by norm_num) (by norm_num) (by norm_num)]
    norm_num
    rw [rhe_eq_of (f := 5224175567749775) (by rw [Int.floor_eq_iff]; norm_num) (by norm_num)]
    norm_num]
  rw [show (5224175567749775 : ℚ) / 18014398509481984 * 100
      = 130604389193744375 / 4503599627370496 by norm_num]
  rw [show fl64 ((130604389193744375 : ℚ) / 4503599627370496)
      = 8162774324609023 / 281474976710656 by
    rw [fl64, if_neg (by norm_num), if_pos (by norm_num),
      log2_eq (q := (130604389193744375 : ℚ) / 4503599627370496) (e := 4)
        (by norm_num) (by norm_num) (by norm_num)]
    norm_num
    rw [rhe_eq_of (f := 8162774324609023) (by rw [Int.floor_eq_iff]; norm_num) (by norm_num)]
    norm_num]
  rw [floatTrunc, if_pos (by norm_num)]
  rw [Int.floor_eq_iff]
  norm_num

/-! ### Claim C1 — cursor bounds after arbitrary navigation -/

/-- C1 counterexample.  On a 23-image collection, two `next()` presses from
the initial cursor 0 give cursor 20, which violates the claimed invariant
`0 <= cursor <= max(0, L - 10) = 13`: `show_next` only requires
`cursor + 10 < L`, so it can move the cursor past `L - 10`. -/
theorem nav_cursor_claim_cex :
    (applyOps [NavOp.next, NavOp.next]
        (ReviewDialog.init (List.replicate 23 "f"))).current_index = 20 ∧
      ¬((applyOps [NavOp.next, NavOp.next]
          (ReviewDialog.init (List.replicate 23 "f"))).current_index ≤
        max 0 (((List.replicate 23 "f").length : Int) - 10)) := by
  decide

/-- C1 amended.  For every collection of length L and every operation
sequence from the initial cursor 0, the cursor stays in
`[min(0, L - 10), max(0, L - 1)]`: `next()` can land anywhere below `L`
(not only below `L - 10`), and for `L < 10` a `jumpForward()` drives the
cursor down to the negative value `L - 10` because the source clamps only
against `len(self.image_files) - 10` with no lower bound.  Since the bound
is proved for every operation sequence, it holds after every prefix of a
sequence, i.e. after every single operation. -/
theorem nav_cursor_bounds (files : List String) (ops : List NavOp) :
    min 0 ((files.length : Int) - 10) ≤
        (applyOps ops (ReviewDialog.init files)).current_index ∧
      (applyOps ops (ReviewDialog.init files)).current_index ≤
        max 0 ((files.length : Int) - 1) := by
  have h := applyOps_cursor_bounds ops (ReviewDialog.init files)
    (by simp only [ReviewDialog.init, ReviewDialog.len]; omega)
    (by simp only [ReviewDialog.init, ReviewDialog.len]; omega)
  simpa [ReviewDialog.init, ReviewDialog.len] using h

/-! ### Claim C2 — jumpToEnd then jumpForward -/

/-- C2 counterexample.  On the non-empty single-image collection,
`jump_to_end` sets the cursor to `max(0, 1 - 10) = 0` but the following
`jump_forward` sets it to `min(0 + 1, 1 - 10) = -9`: the composition is
not a no-op on collections shorter than the page size. -/
theorem jump_end_forward_cex :
    (jump_to_end (ReviewDialog.init ["x"])).current_index = 0 ∧
      (jump_forward (jump_to_end (ReviewDialog.init ["x"]))).current_index = -9 := by
  decide

/-- C2 amended.  For every collection of at least 10 images (the page
size), `jump_forward` after `jump_to_end` leaves the cursor unchanged:
both clamp to `L - 10 >= 0`. -/
theorem jump_end_forward_idem (d : ReviewDialog) (h : 10 ≤ d.image_files.length) :
    (jump_forward (jump_to_end d)).current_index = (jump_to_end d).current_index := by
  have hj : 1 ≤ jump_amount (jump_to_end d) := le_max_left _ _
  simp only [jump_forward, jump_to_end, jump_amount, ReviewDialog.len] at *
  omega

/-- Witness for the amended C2 at a concrete 12-image collection. -/
theorem jump_end_forward_idem_witness :
    10 ≤ (List.replicate 12 "x").length ∧
      (jump_forward (jump_to_end (ReviewDialog.init (List.replicate 12 "x")))).current_index =
        (jump_to_end (ReviewDialog.init (List.replicate 12 "x"))).current_index :=
  ⟨by decide, jump_end_forward_idem (ReviewDialog.init (List.replicate 12 "x")) (by decide)⟩

/-! ### Claim C8 — next and previous are clamped no-ops at the boundary -/

/-- C8.  `show_next` adds 10 exactly when `cursor + 10 < L` and otherwise
leaves the cursor unchanged; `show_previous` subtracts 10 exactly when
`cursor - 10 >= 0` and otherwise leaves the cursor unchanged.  Both are
total functions of the state: the no-op branches return the state
unchanged rather than raising. -/
theorem next_previous_clamping (files : List String) (c : Int) :
    (show_next { image_files := files, current_index := c }).current_index =
        (if c + 10 < (files.length : Int) then c + 10 else c) ∧
      (show_previous { image_files := files, current_index := c }).current_index =
        (if c - 10 < 0 then c else c - 10) := by
  constructor <;>
    simp only [show_next, show_previous, ReviewDialog.len] <;>
    split_ifs <;> first | rfl | omega

/-! ### Claim C9 — position summary -/

/-- C9 counterexample.  At cursor 29 on a 100-image collection — a state
satisfying the claimed cursor invariant — the percentage the code returns
is 28, not the claimed `floor(29 / max(1, 100) * 100) = 29`: the binary64
value of `29/100` is `5224175567749775 * 2^-54`, just below `0.29`, and
multiplying by 100 gives a double just below 29, which `int()` truncates
to 28. -/
theorem position_percent_cex :
    ((0 : Int) ≤ 29 ∧ (29 : Int) ≤ max 0 (((List.replicate 100 "x").length : Int) - 10)) ∧
      (update_position_info
          { image_files := List.replicate 100 "x", current_index := 29 }).percent = 28 ∧
      ⌊(29 : ℚ) / ((max 1 (List.replicate 100 "x").length : ℕ) : ℚ) * 100⌋ = 29 := by
  refine ⟨⟨by decide, by decide⟩, ?_, ?_⟩
  · show floatTrunc (fl64 (fl64
        ((((29 : ℤ) : ℚ)) / (((max 1 ((List.replicate 100 "x").length : ℤ) : ℤ)) : ℚ)) * 100)) = 28
    rw [show (((max 1 ((List.replicate 100 "x").length : ℤ) : ℤ)) : ℚ) = 100 by
      rw [List.length_replicate]; norm_num]
    rw [show (((29 : ℤ) : ℚ)) = 29 by norm_num]
    exact float_eval_29_100
  · rw [List.length_replicate]
    rw [show (29 : ℚ) / ((max 1 100 : ℕ) : ℚ) * 100 = ((29 : ℤ) : ℚ) by norm_num]
    rw [Int.floor_intCast]

/-- C9 amended.  For every state, `update_position_info` reports the
1-based inclusive range `[cursor + 1, min(cursor + 10, L)]`; the
percentage it reports is the binary64 evaluation of
`int((cursor / max(1, L)) * 100)`, which can be one below the exact
`floor(cursor / max(1, L) * 100)` (28 instead of 29 at cursor 29,
length 100). -/
theorem position_summary_range (files : List String) (c : Int) :
    (update_position_info { image_files := files, current_index := c }).start = c + 1 ∧
      (update_position_info { image_files := files, current_index := c }).stop =
        min (c + 10) (files.length : Int) ∧
      (update_position_info { image_files := files, current_index := c }).percent =
        floatTrunc (fl64 (fl64
          ((c : ℚ) / (((max 1 (files.length : Int) : ℤ)) : ℚ)) * 100)) :=
  ⟨rfl, rfl, rfl⟩

/-! ### Claim C10 — navigation mutates only the cursor -/

/-- C10.  Each of the six navigation operations leaves `image_files` — the
list of item references, hence its length and order — exactly as it was;
only `current_index` is reassigned. -/
theorem nav_only_moves_cursor (d : ReviewDialog) :
    (show_next d).image_files = d.image_files ∧
      (show_previous d).image_files = d.image_files ∧
      (jump_forward d).image_files = d.image_files ∧
      (jump_back d).image_files = d.image_files ∧
      (jump_to_start d).image_files = d.image_files ∧
      (jump_to_end d).image_files = d.image_files :=
  ⟨applyOp_image_files NavOp.next d, applyOp_image_files NavOp.previous d,
    applyOp_image_files NavOp.jumpForward d, applyOp_image_files NavOp.jumpBackward d,
    applyOp_image_files NavOp.jumpToStart d, applyOp_image_files NavOp.jumpToEnd d⟩

/-! ### Helper lemmas about the decode loop -/

/-- The computed interval is at least 1 in both branches. -/
lemma one_le_interval (a t : ℚ) : 1 ≤ interval a t := by
  unfold interval
  split
  · exact le_refl 1
  · exact le_max_left _ _

/-- `Rat.floor` agrees with the floor of the `FloorRing` instance. -/
lemma rat_floor_eq_floor (q : ℚ) : Rat.floor q = ⌊q⌋ := by
  rw [Rat.floor_def', Rat.floor_def]

lemma posList_succ (pos n : ℕ) :
    posList pos (n + 1) = (pos + 1) :: posList (pos + 1) n := by
  simp only [posList, List.range_succ_eq_map, List.map_cons, List.map_map]
  congr 1
  apply List.map_congr_left
  intro i _
  simp only [Function.comp_apply]
  omega

lemma posList_append (pos a b : ℕ) :
    posList pos (a + b) = posList pos a ++ posList (pos + a) b := by
  simp only [posList, List.range_add, List.map_append, List.map_map]
  congr 1
  apply List.map_congr_left
  intro i _
  simp only [Function.comp_apply]
  omega

lemma mem_posList {pos n q : ℕ} : q ∈ posList pos n ↔ pos + 1 ≤ q ∧ q ≤ pos + n := by
  simp only [posList, List.mem_map, List.mem_range]
  constructor
  · rintro ⟨i, hi, rfl⟩
    omega
  · intro h
    exact ⟨q - pos - 1, by omega, by omega⟩

/-- Unfolding of one selected, successfully written frame. -/
lemma runLoop_cons_sel_ok {iv : ℕ} {total : Int} {stop : EndEvent}
    {rest : List FrameEvent} {pos count : ℕ} (h : (pos + 1) % iv = 0) :
    runLoop iv total stop (FrameEvent.ok :: rest) pos count =
      { runLoop iv total stop rest (pos + 1) (count + 1) with
        writes := (count, pos + 1) ::
          (runLoop iv total stop rest (pos + 1) (count + 1)).writes
        progress := progCons total (pos + 1)
          (runLoop iv total stop rest (pos + 1) (count + 1)).progress } := by
  simp [runLoop, h]

/-- Unfolding of one selected frame whose write raises: the loop aborts
with nothing recorded after this point, no release, no finished signal. -/
lemma runLoop_cons_sel_wr {iv : ℕ} {total : Int} {stop : EndEvent}
    {rest : List FrameEvent} {pos count : ℕ} (h : (pos + 1) % iv = 0) :
    runLoop iv total stop (FrameEvent.writeRaises :: rest) pos count =
      { writes := [], progress := [], released := false, finished := false } := by
  simp [runLoop, h]

/-- Unfolding of one unselected frame: no write is attempted, so the write
behaviour of the event is irrelevant. -/
lemma runLoop_cons_not {iv : ℕ} {total : Int} {stop : EndEvent}
    {rest : List FrameEvent} {pos count : ℕ} (e : FrameEvent)
    (h : ¬(pos + 1) % iv = 0) :
    runLoop iv total stop (e :: rest) pos count =
      { runLoop iv total stop rest (pos + 1) count with
        progress := progCons total (pos + 1)
          (runLoop iv total stop rest (pos + 1) count).progress } := by
  cases e <;> simp [runLoop, h]

/-- On an all-ok stream the recorded write positions are exactly the
reported positions divisible by the interval. -/
lemma runLoop_writes_pos (iv : ℕ) (total : Int) (stop : EndEvent) (n : ℕ) :
    ∀ (pos count : ℕ),
      (runLoop iv total stop (List.replicate n FrameEvent.ok) pos count).writes.map Prod.snd
        = (posList pos n).filter (fun q => q % iv == 0) := by
  induction n with
  | zero =>
    intro pos count
    cases stop <;> simp [runLoop, posList]
  | succ n ih =>
    intro pos count
    rw [List.replicate_succ, posList_succ]
    by_cases h : (pos + 1) % iv = 0
    · rw [runLoop_cons_sel_ok h, List.filter_cons_of_pos (by simpa using h)]
      simpa using ih (pos + 1) (count + 1)
    · rw [runLoop_cons_not FrameEvent.ok h, List.filter_cons_of_neg (by simpa using h)]
      simpa using ih (pos + 1) count

/-- The recorded sequence indices count up from the starting index with no
gaps, whatever the events are. -/
lemma runLoop_writes_idx (iv : ℕ) (total : Int) (stop : EndEvent) (es : List FrameEvent) :
    ∀ (pos count : ℕ),
      (runLoop iv total stop es pos count).writes.map Prod.fst
        = (List.range (runLoop iv total stop es pos count).writes.length).map
            (fun i => count + i) := by
  induction es with
  | nil =>
    intro pos count
    cases stop <;> simp [runLoop]
  | cons e rest ih =>
    intro pos count
    by_cases h : (pos + 1) % iv = 0
    · cases e
      · rw [runLoop_cons_sel_ok h]
        simp only [List.map_cons, List.length_cons, List.range_succ_eq_map,
          List.map_map]
        refine congrArg₂ _ (by omega) ?_
        rw [ih (pos + 1) (count + 1)]
        apply List.map_congr_left
        intro i _
        simp only [Function.comp_apply]
        omega
      · rw [runLoop_cons_sel_wr h]
        simp
    · rw [runLoop_cons_not e h]
      simpa using ih (pos + 1) count

/-- On an all-ok stream with a positive reported total, one progress value
is emitted per decoded frame, in position order. -/
lemma runLoop_progress_pos (iv : ℕ) (total : Int) (stop : EndEvent)
    (hT : 0 < total) (n : ℕ) :
    ∀ (pos count : ℕ),
      (runLoop iv total stop (List.replicate n FrameEvent.ok) pos count).progress
        = (posList pos n).map
            (fun q : ℕ => floatTrunc (fl64 (fl64 ((q : ℚ) / (total : ℚ)) * 100))) := by
  induction n with
  | zero =>
    intro pos count
    cases stop <;> simp [runLoop, posList]
  | succ n ih =>
    intro pos count
    rw [List.replicate_succ, posList_succ, List.map_cons]
    by_cases h : (pos + 1) % iv = 0
    · rw [runLoop_cons_sel_ok h]
      simp only [progCons, if_pos hT]
      simpa using ih (pos + 1) (count + 1)
    · rw [runLoop_cons_not FrameEvent.ok h]
      simp only [progCons, if_pos hT]
      simpa using ih (pos + 1) count

/-- With a non-positive reported total no progress value is ever emitted. -/
lemma runLoop_progress_nonpos (iv : ℕ) (total : Int) (stop : EndEvent)
    (hT : total ≤ 0) (es : List FrameEvent) :
    ∀ (pos count : ℕ),
      (runLoop iv total stop es pos count).progress = [] := by
  induction es with
  | nil =>
    intro pos count
    cases stop <;> simp [runLoop]
  | cons e rest ih =>
    intro pos count
    by_cases h : (pos + 1) % iv = 0
    · cases e
      · rw [runLoop_cons_sel_ok h]
        simp only [progCons, if_neg (by omega : ¬(0 < total))]
        exact ih (pos + 1) (count + 1)
      · rw [runLoop_cons_sel_wr h]
    · rw [runLoop_cons_not e h]
      simp only [progCons, if_neg (by omega : ¬(0 < total))]
      exact ih (pos + 1) count

/-- With a positive total, the progress values of an arbitrary run (also an
aborted one) are those of the first `m` consecutive positions, for some
`m`. -/
lemma runLoop_progress_shape (iv : ℕ) (total : Int) (stop : EndEvent)
    (hT : 0 < total) (es : List FrameEvent) :
    ∀ (pos count : ℕ), ∃ m,
      (runLoop iv total stop es pos count).progress
        = (posList pos m).map
            (fun q : ℕ => floatTrunc (fl64 (fl64 ((q : ℚ) / (total : ℚ)) * 100))) := by
  induction es with
  | nil =>
    intro pos count
    exact ⟨0, by cases stop <;> simp [runLoop, posList]⟩
  | cons e rest ih =>
    intro pos count
    by_cases h : (pos + 1) % iv = 0
    · cases e
      · obtain ⟨m, hm⟩ := ih (pos + 1) (count + 1)
        refine ⟨m + 1, ?_⟩
        rw [runLoop_cons_sel_ok h, posList_succ, List.map_cons]
        simp only [progCons, if_pos hT]
        simpa using hm
      · exact ⟨0, by rw [runLoop_cons_sel_wr h]; simp [posList]⟩
    · obtain ⟨m, hm⟩ := ih (pos + 1) count
      refine ⟨m + 1, ?_⟩
      rw [runLoop_cons_not e h, posList_succ, List.map_cons]
      simp only [progCons, if_pos hT]
      simpa using hm

lemma posList_pairwise (pos n : ℕ) : (posList pos n).Pairwise (· ≤ ·) := by
  simp only [posList]
  rw [List.pairwise_map]
  exact (List.pairwise_lt_range n).imp (by intro a b h; omega)

/-- Release and finished-signal behaviour on an all-ok stream: reaching end
of stream releases the source and emits finished; a read that raises skips
both. -/
lemma runLoop_ok_release (iv : ℕ) (total : Int) (n : ℕ) :
    ∀ (pos count : ℕ),
      (runLoop iv total EndEvent.eof (List.replicate n FrameEvent.ok) pos count).released = true
      ∧ (runLoop iv total EndEvent.eof (List.replicate n FrameEvent.ok) pos count).finished = true
      ∧ (runLoop iv total EndEvent.readRaises (List.replicate n FrameEvent.ok) pos count).released = false
      ∧ (runLoop iv total EndEvent.readRaises (List.replicate n FrameEvent.ok) pos count).finished = false := by
  induction n with
  | zero =>
    intro pos count
    simp [runLoop]
  | succ n ih =>
    intro pos count
    rw [List.replicate_succ]
    by_cases h : (pos + 1) % iv = 0
    · rw [runLoop_cons_sel_ok h, runLoop_cons_sel_ok h]
      simpa using ih (pos + 1) (count + 1)
    · rw [runLoop_cons_not FrameEvent.ok h, runLoop_cons_not FrameEvent.ok h]
      simpa using ih (pos + 1) count

/-- Among positions `1, …, n`, the first one divisible by `iv ≥ 1` is `iv`
itself, present exactly when `iv ≤ n`. -/
lemma first_selected (iv n : ℕ) (hiv : 1 ≤ iv) :
    ((posList 0 n).filter (fun q => q % iv == 0)).head? =
      if iv ≤ n then some iv else none := by
  by_cases h : iv ≤ n
  · rw [if_pos h, show n = (iv - 1) + (n - iv + 1) by omega, posList_append,
      List.filter_append]
    have h1 : (posList 0 (iv - 1)).filter (fun q => q % iv == 0) = [] := by
      rw [List.filter_eq_nil_iff]
      intro q hq
      have hq' := mem_posList.mp hq
      simp only [beq_iff_eq]
      rw [Nat.mod_eq_of_lt (by omega)]
      omega
    have h2 : posList (0 + (iv - 1)) (n - iv + 1) =
        iv :: posList iv (n - iv) := by
      rw [posList_succ]
      have e1 : 0 + (iv - 1) + 1 = iv := by omega
      rw [e1]
    rw [h1, h2, List.nil_append,
      List.filter_cons_of_pos (by simp [Nat.mod_self])]
    rfl
  · rw [if_neg h]
    have h1 : (posList 0 n).filter (fun q => q % iv == 0) = [] := by
      rw [List.filter_eq_nil_iff]
      intro q hq
      have hq' := mem_posList.mp hq
      simp only [beq_iff_eq]
      rw [Nat.mod_eq_of_lt (by omega)]
      omega
    rw [h1]
    rfl

/-- The 1-based position list starting at the origin. -/
lemma posList_zero_eq (n : ℕ) :
    posList 0 n = (List.range n).map (fun i => i + 1) := by
  simp only [posList]
  apply List.map_congr_left
  intro i _
  omega

/-! ### Claim C3 — spacing less than or equal to zero -/

/-- C3 counterexample.  A job with target spacing 0 (all paths present, a
parseable input) is not rejected: `process_video` computes `fps = 0` and
starts the extractor, and the extractor — far from writing no files —
falls back to `interval = 1` and writes every one of the 3 decoded frames
of this run. -/
theorem spacing_rejection_cex :
    process_video true true true (some 0) = ProcessOutcome.started 0 ∧
      interval 30 0 = 1 ∧
      (run 30 0 5 (List.replicate 3 FrameEvent.ok) EndEvent.eof).writes.length = 3 := by
  decide

/-- C3 amended.  A sampling job whose target spacing `s ≤ 0` is **not**
rejected: `process_video` silently coerces it to `fps = 0` and starts the
extractor, whose fail-safe branch sets `interval = 1` so that every decoded
frame is selected and written.  (Only a missing path, an empty input field
or an unparseable input string are rejected before sampling.) -/
theorem spacing_coerced (s : ℚ) (hs : s ≤ 0) (a : ℚ) (total : Int)
    (n : ℕ) (stop : EndEvent) :
    process_video true true true (some s) = ProcessOutcome.started 0 ∧
      interval a 0 = 1 ∧
      (run a 0 total (List.replicate n FrameEvent.ok) stop).writes.length = n := by
  refine ⟨?_, ?_, ?_⟩
  · simp [process_video, not_lt.mpr hs]
  · simp [interval]
  · have h := runLoop_writes_pos (interval a 0) total stop n 0 0
    have hiv : interval a 0 = 1 := by simp [interval]
    rw [hiv] at h
    have hall : (posList 0 n).filter (fun q => q % 1 == 0) = posList 0 n := by
      apply List.filter_eq_self.mpr
      intro q _
      simp [Nat.mod_one]
    rw [hall] at h
    have hlen := congrArg List.length h
    simpa [run, hiv, posList] using hlen

/-- Witness for the amended C3 at concrete spacing `-1`. -/
theorem spacing_coerced_witness :
    (-1 : ℚ) ≤ 0 ∧
      (process_video true true true (some (-1)) = ProcessOutcome.started 0 ∧
        interval 30 0 = 1 ∧
        (run 30 0 5 (List.replicate 4 FrameEvent.ok) EndEvent.eof).writes.length = 4) :=
  ⟨by norm_num, spacing_coerced (-1) (by norm_num) 30 5 4 EndEvent.eof⟩

/-! ### Claim C4 — interval computation and frame selection -/

/-- C4.  The interval is `max(1, floor(actualRate / targetRate))` when both
rates are positive and 1 otherwise; on a run of `n` decoded frames with
reported 1-based positions `1, …, n` the selected (written) positions are
exactly those divisible by the interval, so position 0 never occurs among
them and the first selected position is `interval` itself (present exactly
when the run is long enough). -/
theorem frame_selection_rule (a t : ℚ) (total : Int) (n : ℕ) (stop : EndEvent) :
    ((interval a t : ℤ) = if a ≤ 0 ∨ t ≤ 0 then 1 else max 1 ⌊a / t⌋) ∧
      (run a t total (List.replicate n FrameEvent.ok) stop).writes.map Prod.snd
        = ((List.range n).map (fun i => i + 1)).filter (fun p => p % interval a t == 0) ∧
      (0 : ℕ) ∉ (run a t total (List.replicate n FrameEvent.ok) stop).writes.map Prod.snd ∧
      ((run a t total (List.replicate n FrameEvent.ok) stop).writes.map Prod.snd).head?
        = (if interval a t ≤ n then some (interval a t) else none) := by
  have hpos : (run a t total (List.replicate n FrameEvent.ok) stop).writes.map Prod.snd
      = (posList 0 n).filter (fun q => q % interval a t == 0) :=
    runLoop_writes_pos (interval a t) total stop n 0 0
  refine ⟨?_, ?_, ?_, ?_⟩
  · by_cases h : a ≤ 0 ∨ t ≤ 0
    · simp [interval, h]
    · push_neg at h
      have ha : 0 < a := h.1
      have ht : 0 < t := h.2
      have hq : (0 : ℤ) ≤ ⌊a / t⌋ :=
        Int.floor_nonneg.mpr (le_of_lt (div_pos ha ht))
      simp only [interval, if_neg (by push_neg; exact h : ¬(a ≤ 0 ∨ t ≤ 0)), rat_floor_eq_floor]
      push_cast [Int.toNat_of_nonneg hq]
      rfl
  · rw [hpos, posList_zero_eq]
  · rw [hpos]
    intro h0
    have := (List.mem_filter.mp h0).1
    have := mem_posList.mp this
    omega
  · rw [hpos]
    exact first_selected (interval a t) n (one_le_interval a t)

/-! ### Claim C5 — output naming -/

/-- C5.  Whatever the events of a run (including aborted ones), the file
sequence indices of the writes performed are `0, 1, 2, …` with no gaps, in
decode order, one per selected frame; each file is named
`snapshot_NNNN.jpg` with the index zero-padded to at least 4 digits (the
padded index has length `max 4 (number of digits)`). -/
theorem snapshot_naming (a t : ℚ) (total : Int) (es : List FrameEvent) (stop : EndEvent) :
    (run a t total es stop).writes.map Prod.fst
        = List.range (run a t total es stop).writes.length ∧
      (run a t total es stop).writes.map (fun w => snapshotName w.fst)
        = (List.range (run a t total es stop).writes.length).map snapshotName ∧
      ∀ k : ℕ, (pad4 k).length = max 4 (Nat.repr k).length := by
  have hidx : (run a t total es stop).writes.map Prod.fst
      = List.range (run a t total es stop).writes.length := by
    have h := runLoop_writes_idx (interval a t) total stop es 0 0
    have h2 : (List.range (runLoop (interval a t) total stop es 0 0).writes.length).map
        (fun i => 0 + i) =
          List.range (runLoop (interval a t) total stop es 0 0).writes.length := by
      rw [show (fun i => 0 + i) = fun i : ℕ => i by funext i; omega]
      exact List.map_id _
    exact h.trans h2
  refine ⟨hidx, ?_, ?_⟩
  · have : (run a t total es stop).writes.map (fun w => snapshotName w.fst)
        = ((run a t total es stop).writes.map Prod.fst).map snapshotName := by
      rw [List.map_map]
      rfl
    rw [this, hidx]
  · intro k
    have hmk : (String.mk (List.replicate (4 - (Nat.repr k).length) '0')).length
        = 4 - (Nat.repr k).length := by
      rw [show (String.mk (List.replicate (4 - (Nat.repr k).length) '0')).length
          = (List.replicate (4 - (Nat.repr k).length) '0').length from rfl]
      exact List.length_replicate _ _
    simp only [pad4, String.length_append, hmk]
    omega

/-! ### Claim C6 — progress reporting -/

/-- The progress value emitted for a later position is never smaller: the
binary64 division by the fixed positive total, the multiplication by 100
and the truncation are each monotone. -/
lemma progValue_mono {total : Int} (hT : 0 < total) {p q : ℕ} (h : p ≤ q) :
    floatTrunc (fl64 (fl64 ((p : ℚ) / (total : ℚ)) * 100))
      ≤ floatTrunc (fl64 (fl64 ((q : ℚ) / (total : ℚ)) * 100)) := by
  have hTQ : (0 : ℚ) < (total : ℚ) := by exact_mod_cast hT
  have h1 : (p : ℚ) / (total : ℚ) ≤ (q : ℚ) / (total : ℚ) :=
    div_le_div_of_nonneg_right (by exact_mod_cast h) hTQ.le
  have h0 : (0 : ℚ) ≤ (p : ℚ) / (total : ℚ) := by positivity
  have h4 : fl64 ((p : ℚ) / (total : ℚ)) * 100 ≤ fl64 ((q : ℚ) / (total : ℚ)) * 100 :=
    mul_le_mul_of_nonneg_right (fl64_mono h0 h1) (by norm_num)
  have h5 : (0 : ℚ) ≤ fl64 ((p : ℚ) / (total : ℚ)) * 100 := by
    have := fl64_nonneg h0
    positivity
  exact floatTrunc_mono (fl64_mono h5 h4)

lemma getLast?_map {α β : Type} (f : α → β) (l : List α) :
    (l.map f).getLast? = l.getLast?.map f := by
  induction l with
  | nil => rfl
  | cons a l ih =>
    cases l with
    | nil => rfl
    | cons b m => simpa [List.map_cons, List.getLast?_cons_cons] using ih

/-- C6 counterexample.  On a run with reported total 100, the progress
value emitted after the 29th decoded frame is 28, not the exact
`floor(29 / 100 * 100) = 29`: the binary64 value of `29/100` lies just
below `0.29` and multiplying it by 100 gives a double just below 29,
which `int()` truncates to 28. -/
theorem progress_value_cex :
    (run 0 0 100 (List.replicate 29 FrameEvent.ok) EndEvent.eof).progress.getLast?
        = some 28 ∧
      (28 : ℤ) ≠ ⌊(29 : ℚ) / 100 * 100⌋ := by
  constructor
  · have h := runLoop_progress_pos (interval 0 0) 100 EndEvent.eof (by norm_num) 29 0 0
    rw [show (run 0 0 100 (List.replicate 29 FrameEvent.ok) EndEvent.eof).progress
        = (posList 0 29).map
            (fun q : ℕ => floatTrunc (fl64 (fl64 ((q : ℚ) / ((100 : ℤ) : ℚ)) * 100))) from h]
    rw [getLast?_map, show (posList 0 29).getLast? = some 29 from by decide]
    have hv : floatTrunc (fl64 (fl64 (((29 : ℕ) : ℚ) / ((100 : ℤ) : ℚ)) * 100)) = 28 := by
      rw [show (((29 : ℕ) : ℚ)) = 29 by norm_num, show (((100 : ℤ) : ℚ)) = 100 by norm_num]
      exact float_eval_29_100
    show some (floatTrunc (fl64 (fl64 (((29 : ℕ) : ℚ) / ((100 : ℤ) : ℚ)) * 100))) = some 28
    rw [hv]
  · rw [show (29 : ℚ) / 100 * 100 = ((29 : ℤ) : ℚ) by norm_num, Int.floor_intCast]
    decide

/-- C6 amended.  With a known positive reported total `T`, one progress
value is emitted after each decoded frame, equal to the binary64
evaluation of `int(position / T * 100)` — which can be one below the
exact `floor(position * 100 / T)`, e.g. 28 instead of 29 at position 29 of
100; the emitted sequence of any run (aborted or not) is monotonically
non-decreasing; and with an unknown (non-positive) total no progress value
is ever emitted. -/
theorem progress_reporting (a t : ℚ) (total : Int) (es : List FrameEvent)
    (stop : EndEvent) (n : ℕ) :
    ((run a t total (List.replicate n FrameEvent.ok) stop).progress
        = if 0 < total then
            (List.range n).map
              (fun i : ℕ => floatTrunc (fl64 (fl64 (((i + 1 : ℕ) : ℚ) / (total : ℚ)) * 100)))
          else []) ∧
      (run a t total es stop).progress.Pairwise (· ≤ ·) ∧
      (total ≤ 0 → (run a t total es stop).progress = []) := by
  refine ⟨?_, ?_, ?_⟩
  · by_cases hT : 0 < total
    · rw [if_pos hT]
      have h := runLoop_progress_pos (interval a t) total stop hT n 0 0
      rw [show (run a t total (List.replicate n FrameEvent.ok) stop).progress
          = (posList 0 n).map
              (fun q : ℕ => floatTrunc (fl64 (fl64 ((q : ℚ) / (total : ℚ)) * 100))) from h,
        posList_zero_eq, List.map_map]
      rfl
    · rw [if_neg hT]
      exact runLoop_progress_nonpos (interval a t) total stop (by omega) _ 0 0
  · by_cases hT : 0 < total
    · obtain ⟨m, hm⟩ := runLoop_progress_shape (interval a t) total stop hT es 0 0
      rw [show (run a t total es stop).progress
          = (posList 0 m).map
              (fun q : ℕ => floatTrunc (fl64 (fl64 ((q : ℚ) / (total : ℚ)) * 100))) from hm]
      rw [List.pairwise_map]
      exact (posList_pairwise 0 m).imp (fun h => progValue_mono hT h)
    · have h0 := runLoop_progress_nonpos (interval a t) total stop (by omega) es 0 0
      rw [show (run a t total es stop).progress = ([] : List ℤ) from h0]
      exact List.Pairwise.nil
  · intro hT
    exact runLoop_progress_nonpos (interval a t) total stop hT es 0 0

/-- Witness for C6: a zero reported total emits nothing, and a total of 5
on a 2-frame run emits the binary64-scaled values after each decoded
frame. -/
theorem progress_reporting_witness :
    (run 30 1 0 [FrameEvent.ok] EndEvent.eof).progress = [] ∧
      (run 30 1 5 (List.replicate 2 FrameEvent.ok) EndEvent.eof).progress
        = (if (0 : Int) < 5 then
            (List.range 2).map
              (fun i : ℕ => floatTrunc (fl64 (fl64 (((i + 1 : ℕ) : ℚ) / ((5 : ℤ) : ℚ)) * 100)))
          else []) :=
  ⟨(progress_reporting 30 1 0 [FrameEvent.ok] EndEvent.eof 0).2.2 (by decide),
    (progress_reporting 30 1 5 [FrameEvent.ok] EndEvent.eof 2).1⟩

/-! ### Claim C7 — source release -/

/-- C7 counterexample.  The decode loop has no `try/finally`: a run whose
first selected frame write raises terminates without reaching
`video.release()`, and so does a run whose read raises.  The source is
therefore **not** released on abnormal exit. -/
theorem release_claim_cex :
    (run 0 0 10 [FrameEvent.writeRaises] EndEvent.eof).released = false ∧
      (run 0 0 10 [] EndEvent.readRaises).released = false := by
  decide

/-- C7 amended.  The source is released (and the finished signal emitted)
exactly on normal completion, i.e. when every read succeeds, every
attempted write succeeds and the stream ends with `ret == False`; on an
abnormal exit — an exception escaping `video.read()` or a selected
`cv2.imwrite` — the release statement is skipped, because the loop body has
no exception handler. -/
theorem release_on_completion (a t : ℚ) (total : Int) (n : ℕ) :
    ((run a t total (List.replicate n FrameEvent.ok) EndEvent.eof).released = true ∧
        (run a t total (List.replicate n FrameEvent.ok) EndEvent.eof).finished = true) ∧
      ((run a t total (List.replicate n FrameEvent.ok) EndEvent.readRaises).released = false ∧
        (run a t total (List.replicate n FrameEvent.ok) EndEvent.readRaises).finished = false) := by
  have h := runLoop_ok_release (interval a t) total n 0 0
  exact ⟨⟨h.1, h.2.1⟩, ⟨h.2.2.1, h.2.2.2⟩⟩

end Snatcher
